import Mathlib

/-!
# A verification of `constcat` (`src/lib.rs`)

Shallow embedding of the `constcat` crate: the macros `concat!`,
`concat_bytes!` and `concat_slices!` and their hidden helpers `_concat`,
`_concat_bytes`, `_concat_slices`, `_maybe_std_concat` and
`_maybe_std_concat_bytes`.

Modelling choices:
* A constant slice `&[T]` is a `List α`.
* The staging array `[MaybeUninit<T>; LEN]` is a `List (Cell α)`; a cell is
  `zeroed` (produced by `MaybeUninit::zeroed()`), `written a` (produced by
  `MaybeUninit::new(a)`), or `uninit` (the `MaybeUninit::uninit()` state,
  which exists in the `MaybeUninit` API but is never created by this code).
* A compile-time `panic!` and an unjustifiable `transmute` are modelled by
  `Option`: `none` is a failed compile-time evaluation.
* A Rust `str` is a list of Unicode scalar values; `str::as_bytes` is UTF-8
  encoding and `str::from_utf8_unchecked` is UTF-8 decoding.
-/

namespace Constcat

/-- One cell of the staging array `[MaybeUninit<T>; LEN]`. -/
inductive Cell (α : Type) where
  | uninit : Cell α
  | zeroed : Cell α
  | written : α → Cell α
  deriving DecidableEq

/-- Whether a staging cell is in the (never produced here) `uninit` state. -/
def Cell.isUninit {α : Type} : Cell α → Bool
  | .uninit => true
  | _ => false

/-- The inner `while i < $s.len()` copy loop of `_concat_slices`:
`arr[base + i] = MaybeUninit::new($s[i]); i += 1;`. -/
def copyLoop {α : Type} (s : List α) (base : Nat) (i : Nat)
    (arr : List (Cell α)) : List (Cell α) :=
  if h : i < s.length then
    copyLoop s base (i + 1) (arr.set (base + i) (Cell.written (s.get ⟨i, h⟩)))
  else
    arr
termination_by s.length - i

/-- One iteration of the outer per-piece block of `_concat_slices`: run the
copy loop for piece `s` with `i = 0`, then `base += $s.len()`. -/
def concatStep {α : Type} (st : Nat × List (Cell α)) (s : List α) :
    Nat × List (Cell α) :=
  (st.1 + s.length, copyLoop s st.1 0 st.2)

/-- The constant `LEN = $( $s.len() + )* 0;` (of type `usize`) in `_concat_slices`. -/
def LEN {α : Type} (pieces : List (List α)) : Nat :=
  pieces.foldr (fun s acc => s.length + acc) 0

/-- The staged construction of `_concat_slices`: starting from
`base = 0` and `[MaybeUninit::zeroed(); LEN]`, process every piece. -/
def stagingRun {α : Type} (pieces : List (List α)) : Nat × List (Cell α) :=
  pieces.foldl concatStep (0, List.replicate (LEN pieces) Cell.zeroed)

/-- The final `transmute` of `_concat_slices`: reinterpret each
`MaybeUninit<T>` cell as a `T`.  Only a `written` cell holds a value of
type `T` that the model can name, so the result is defined exactly when
every cell has been written. -/
def finalize {α : Type} : List (Cell α) → Option (List α)
  | [] => some []
  | .written a :: cs => (finalize cs).map fun xs => a :: xs
  | _ => none

/-- The `_concat_slices!` macro.  The empty arm returns `&[]` directly; the
non-empty arm computes `LEN`, runs the staged construction, checks the
`if base != LEN { panic!("invalid length") }` guard (a `none` result), and
transmutes the staging array. -/
def _concat_slices {α : Type} (pieces : List (List α)) : Option (List α) :=
  match pieces with
  | [] => some []
  | _ :: _ =>
    if (stagingRun pieces).1 ≠ LEN pieces then none
    else finalize (stagingRun pieces).2

theorem LEN_eq_sum {α : Type} (pieces : List (List α)) :
    LEN pieces = (pieces.map List.length).sum := by
  induction pieces with
  | nil => rfl
  | cons p ps ih => simp [LEN, List.foldr] at ih ⊢; omega

/-- The copy loop writes `s[i], s[i+1], …` into cells `base+i, base+i+1, …`
and touches nothing else. -/
theorem copyLoop_spec {α : Type} (s : List α) (base : Nat) :
    ∀ n i (arr : List (Cell α)), n = s.length - i →
      base + s.length ≤ arr.length → i ≤ s.length →
      copyLoop s base i arr =
        arr.take (base + i) ++ (s.drop i).map Cell.written ++
          arr.drop (base + s.length) := by
  intro n
  induction n with
  | zero =>
    intro i arr hn hlen hi
    have hie : i = s.length := by omega
    subst hie
    rw [copyLoop]
    simp [List.take_append_drop]
  | succ n ih =>
    intro i arr hn hlen hi
    have hi2 : i < s.length := by omega
    rw [copyLoop, dif_pos hi2]
    rw [ih (i + 1) _ (by omega) (by simp; omega) (by omega)]
    have hbl : base + i < arr.length := by omega
    have h1 : (arr.set (base + i) (Cell.written (s.get ⟨i, hi2⟩))).take
        (base + (i + 1)) = arr.take (base + i) ++
          [Cell.written (s.get ⟨i, hi2⟩)] := by
      rw [show base + (i + 1) = (base + i) + 1 by omega, List.take_succ,
        List.set_take]
      rw [List.getElem?_set_self (by omega)]
      rw [List.set_eq_of_length_le (by simp)]
      rfl
    have h2 : (arr.set (base + i) (Cell.written (s.get ⟨i, hi2⟩))).drop
        (base + s.length) = arr.drop (base + s.length) := by
      rw [List.drop_set, if_pos (by omega)]
    have h3 : s.drop i = s.get ⟨i, hi2⟩ :: s.drop (i + 1) :=
      List.drop_eq_getElem_cons hi2
    rw [h1, h2, h3, List.map_cons]
    simp only [List.append_assoc, List.cons_append, List.singleton_append,
      List.nil_append]

/-- Processing the remaining pieces from a state whose first `base` cells
form `pre` turns the next `LEN rest` cells into the written elements of
`rest.flatten`. -/
theorem foldl_concatStep {α : Type} (rest : List (List α)) :
    ∀ (base : Nat) (pre suf : List (Cell α)), pre.length = base →
      LEN rest ≤ suf.length →
      rest.foldl concatStep (base, pre ++ suf) =
        (base + LEN rest,
          pre ++ (rest.flatten).map Cell.written ++ suf.drop (LEN rest)) := by
  induction rest with
  | nil =>
    intro base pre suf hpre hsuf
    simp [LEN]
  | cons s rest ih =>
    intro base pre suf hpre hsuf
    have hlen : LEN (s :: rest) = s.length + LEN rest := rfl
    have hslen : s.length ≤ suf.length := by omega
    rw [List.foldl_cons]
    have hstep : concatStep (base, pre ++ suf) s =
        (base + s.length, (pre ++ s.map Cell.written) ++ suf.drop s.length) := by
      unfold concatStep
      rw [copyLoop_spec s base (s.length - 0) 0 (pre ++ suf) rfl
        (by simp; omega) (by omega)]
      have t1 : (pre ++ suf).take (base + 0) = pre := by
        rw [Nat.add_zero, List.take_left' hpre]
      have t2 : (pre ++ suf).drop (base + s.length) = suf.drop s.length := by
        rw [← hpre, List.drop_append]
      rw [t1, t2]
      simp [List.append_assoc]
    rw [hstep]
    rw [ih (base + s.length) (pre ++ s.map Cell.written) (suf.drop s.length)
      (by simp [hpre]) (by simp; omega)]
    have hdd : (suf.drop s.length).drop (LEN rest) = suf.drop (LEN (s :: rest)) := by
      rw [List.drop_drop]
      congr 1
    rw [hdd]
    simp only [Prod.mk.injEq]
    refine ⟨by omega, ?_⟩
    simp [List.append_assoc]

/-- After the staged construction, the running offset equals `LEN` and the
staging array holds exactly the written elements of the flattened input. -/
theorem stagingRun_eq {α : Type} (pieces : List (List α)) :
    stagingRun pieces = (LEN pieces, (pieces.flatten).map Cell.written) := by
  unfold stagingRun
  have h := foldl_concatStep pieces 0 []
    (List.replicate (LEN pieces) Cell.zeroed) rfl (by simp)
  simpa using h

/-- The transmute succeeds on a fully written staging array and returns the
written values. -/
theorem finalize_map_written {α : Type} (xs : List α) :
    finalize (xs.map Cell.written) = some xs := by
  induction xs with
  | nil => rfl
  | cons x xs ih => simp [finalize, ih]

/-- The macro `_concat_slices` always succeeds and returns the concatenation of its
pieces in order. -/
theorem concat_slices_eq_flatten {α : Type} (pieces : List (List α)) :
    _concat_slices pieces = some pieces.flatten := by
  match pieces with
  | [] => rfl
  | p :: ps =>
    show (if (stagingRun (p :: ps)).1 ≠ LEN (p :: ps) then none
      else finalize (stagingRun (p :: ps)).2) = some (p :: ps).flatten
    rw [stagingRun_eq]
    rw [if_neg (by simp)]
    exact finalize_map_written _

/-- Index `i` of piece `k` lands at output index
`(sum of lengths of pieces before k) + i`. -/
theorem flatten_getElem_eq {α : Type} (ps : List (List α)) :
    ∀ (k : Nat) (hk : k < ps.length) (i : Nat),
      i < (ps.get ⟨k, hk⟩).length →
      (ps.flatten)[((ps.take k).map List.length).sum + i]? =
        (ps.get ⟨k, hk⟩)[i]? := by
  induction ps with
  | nil => intro k hk; simp at hk
  | cons p ps ih =>
    intro k hk i hi
    match k with
    | 0 =>
      simp only [List.take_zero, List.map_nil, List.sum_nil, Nat.zero_add,
        List.flatten_cons]
      rw [List.getElem?_append_left]
      · rfl
      · simpa using hi
    | k + 1 =>
      simp only [List.take_succ_cons, List.map_cons, List.sum_cons,
        List.flatten_cons]
      rw [List.getElem?_append_right (by omega)]
      rw [show p.length + ((ps.take k).map List.length).sum + i - p.length =
        ((ps.take k).map List.length).sum + i by omega]
      exact ih k (by simpa using hk) i hi


/-! ## UTF-8 model

Rust guarantees that a `str` is a UTF-8 encoded byte sequence; the model
represents a `str` value by its list of Unicode scalar values,
`str::as_bytes` by `utf8Encode`, and `str::from_utf8_unchecked` by strict
UTF-8 decoding (a `none` result would mean the unsafe reinterpretation
produced invalid text). -/

def IsScalar (c : Nat) : Prop := c < 0xD800 ∨ (0xE000 ≤ c ∧ c < 0x110000)

instance (c : Nat) : Decidable (IsScalar c) := by unfold IsScalar; infer_instance

def utf8EncodeChar (c : Nat) : List Nat :=
  if c < 0x80 then [c]
  else if c < 0x800 then [0xC0 + c / 64, 0x80 + c % 64]
  else if c < 0x10000 then [0xE0 + c / 4096, 0x80 + c / 64 % 64, 0x80 + c % 64]
  else [0xF0 + c / 262144, 0x80 + c / 4096 % 64, 0x80 + c / 64 % 64, 0x80 + c % 64]

def utf8Encode (cs : List Nat) : List Nat := (cs.map utf8EncodeChar).flatten

/-- Decode one UTF-8 sequence: given the lead byte `b` and the following
bytes `bs`, return the decoded scalar value and the number of continuation
bytes consumed.  Strict: rejects continuation-byte errors, overlong forms,
surrogates and code points above `0x10FFFF`. -/
def decodeOne (b : Nat) (bs : List Nat) : Option (Nat × Nat) :=
  if b < 0x80 then some (b, 0)
  else if b < 0xC2 then none
  else if b < 0xE0 then
    bs[0]?.bind fun b1 =>
      if 0x80 ≤ b1 ∧ b1 < 0xC0 then
        some ((b - 0xC0) * 64 + (b1 - 0x80), 1)
      else none
  else if b < 0xF0 then
    bs[0]?.bind fun b1 => bs[1]?.bind fun b2 =>
      if (0x80 ≤ b1 ∧ b1 < 0xC0) ∧ (0x80 ≤ b2 ∧ b2 < 0xC0) ∧
          (b = 0xE0 → 0xA0 ≤ b1) ∧ (b = 0xED → b1 < 0xA0) then
        some ((b - 0xE0) * 4096 + (b1 - 0x80) * 64 + (b2 - 0x80), 2)
      else none
  else if b < 0xF5 then
    bs[0]?.bind fun b1 => bs[1]?.bind fun b2 => bs[2]?.bind fun b3 =>
      if (0x80 ≤ b1 ∧ b1 < 0xC0) ∧ (0x80 ≤ b2 ∧ b2 < 0xC0) ∧
          (0x80 ≤ b3 ∧ b3 < 0xC0) ∧
          (b = 0xF0 → 0x90 ≤ b1) ∧ (b = 0xF4 → b1 < 0x90) then
        some ((b - 0xF0) * 262144 + (b1 - 0x80) * 4096 + (b2 - 0x80) * 64 +
          (b3 - 0x80), 3)
      else none
  else none

/-- Fuel-driven UTF-8 decoding loop; each step consumes at least the lead
byte, so fuel `l.length` always suffices. -/
def utf8DecodeAux : Nat → List Nat → Option (List Nat)
  | _, [] => some []
  | 0, _ :: _ => none
  | fuel + 1, b :: bs =>
    match decodeOne b bs with
    | none => none
    | some (c, k) => (utf8DecodeAux fuel (bs.drop k)).map fun cs => c :: cs

/-- Full strict UTF-8 decoding of a byte sequence. -/
def utf8Decode (l : List Nat) : Option (List Nat) := utf8DecodeAux l.length l

theorem utf8DecodeAux_irrel : ∀ (f1 : Nat), ∀ (f2 : Nat) (l : List Nat),
    l.length ≤ f1 → l.length ≤ f2 → utf8DecodeAux f1 l = utf8DecodeAux f2 l := by
  intro f1
  induction f1 with
  | zero =>
    intro f2 l h1 h2
    cases l with
    | nil => cases f2 <;> rfl
    | cons b bs => simp at h1
  | succ g1 ih =>
    intro f2 l h1 h2
    cases l with
    | nil => cases f2 <;> rfl
    | cons b bs =>
      cases f2 with
      | zero => simp at h2
      | succ g2 =>
        simp only [utf8DecodeAux]
        cases hdec : decodeOne b bs with
        | none => rfl
        | some ck =>
          obtain ⟨c, k⟩ := ck
          simp only []
          rw [ih g2 (bs.drop k) (by simp [List.length_drop] at h1 ⊢; omega)
            (by simp [List.length_drop] at h2 ⊢; omega)]

theorem utf8DecodeAux_eq (fuel : Nat) (l : List Nat) (h : l.length ≤ fuel) :
    utf8DecodeAux fuel l = utf8Decode l :=
  utf8DecodeAux_irrel fuel l.length l h (Nat.le_refl _)

theorem utf8Decode_encodeChar_append (c : Nat) (h : IsScalar c) (bs : List Nat) :
    utf8Decode (utf8EncodeChar c ++ bs) =
      (utf8Decode bs).map fun cs => c :: cs := by
  unfold utf8EncodeChar
  unfold IsScalar at h
  by_cases h1 : c < 0x80
  · rw [if_pos h1]
    simp only [List.cons_append, List.nil_append]
    have hd : decodeOne c bs = some (c, 0) := by
      unfold decodeOne
      rw [if_pos h1]
    conv_lhs => unfold utf8Decode
    simp only [List.length_cons, utf8DecodeAux, hd]
    rw [List.drop_zero, utf8DecodeAux_eq _ bs (by omega)]
  · rw [if_neg h1]
    by_cases h2 : c < 0x800
    · rw [if_pos h2]
      simp only [List.cons_append, List.nil_append]
      have hd : decodeOne (0xC0 + c / 64) ((0x80 + c % 64) :: bs) =
          some (c, 1) := by
        unfold decodeOne
        rw [if_neg (by omega), if_neg (by omega), if_pos (by omega)]
        simp only [List.getElem?_cons_zero, Option.some_bind]
        rw [if_pos (by omega)]
        have hv : (0xC0 + c / 64 - 0xC0) * 64 + (0x80 + c % 64 - 0x80) = c := by
          omega
        rw [hv]
      conv_lhs => unfold utf8Decode
      simp only [List.length_cons, utf8DecodeAux, hd]
      rw [show ((0x80 + c % 64) :: bs).drop 1 = bs from rfl,
        utf8DecodeAux_eq _ bs (by omega)]
    · rw [if_neg h2]
      by_cases h3 : c < 0x10000
      · rw [if_pos h3]
        simp only [List.cons_append, List.nil_append]
        have hd : decodeOne (0xE0 + c / 4096)
            ((0x80 + c / 64 % 64) :: (0x80 + c % 64) :: bs) =
            some (c, 2) := by
          unfold decodeOne
          rw [if_neg (by omega), if_neg (by omega), if_neg (by omega),
            if_pos (by omega)]
          simp only [List.getElem?_cons_zero, List.getElem?_cons_succ,
            Option.some_bind]
          rw [if_pos (by omega)]
          have hv : (0xE0 + c / 4096 - 0xE0) * 4096 +
              (0x80 + c / 64 % 64 - 0x80) * 64 + (0x80 + c % 64 - 0x80) = c := by
            omega
          rw [hv]
        conv_lhs => unfold utf8Decode
        simp only [List.length_cons, utf8DecodeAux, hd]
        rw [show ((0x80 + c / 64 % 64) :: (0x80 + c % 64) :: bs).drop 2 = bs
          from rfl, utf8DecodeAux_eq _ bs (by omega)]
      · rw [if_neg h3]
        simp only [List.cons_append, List.nil_append]
        have hd : decodeOne (0xF0 + c / 262144)
            ((0x80 + c / 4096 % 64) :: (0x80 + c / 64 % 64) ::
              (0x80 + c % 64) :: bs) = some (c, 3) := by
          unfold decodeOne
          rw [if_neg (by omega), if_neg (by omega), if_neg (by omega),
            if_neg (by omega), if_pos (by omega)]
          simp only [List.getElem?_cons_zero, List.getElem?_cons_succ,
            Option.some_bind]
          rw [if_pos (by omega)]
          have hv : (0xF0 + c / 262144 - 0xF0) * 262144 +
              (0x80 + c / 4096 % 64 - 0x80) * 4096 +
              (0x80 + c / 64 % 64 - 0x80) * 64 + (0x80 + c % 64 - 0x80) = c := by
            omega
          rw [hv]
        conv_lhs => unfold utf8Decode
        simp only [List.length_cons, utf8DecodeAux, hd]
        rw [show ((0x80 + c / 4096 % 64) :: (0x80 + c / 64 % 64) ::
            (0x80 + c % 64) :: bs).drop 3 = bs from rfl,
          utf8DecodeAux_eq _ bs (by omega)]

theorem utf8Decode_encode_append (cs : List Nat) (h : ∀ c ∈ cs, IsScalar c)
    (bs : List Nat) :
    utf8Decode (utf8Encode cs ++ bs) =
      (utf8Decode bs).map fun ds => cs ++ ds := by
  induction cs with
  | nil =>
    simp [utf8Encode]
  | cons c cs ih =>
    have hc : IsScalar c := h c (by simp)
    have hcs : ∀ x ∈ cs, IsScalar x := fun x hx => h x (by simp [hx])
    show utf8Decode ((utf8EncodeChar c ++ utf8Encode cs) ++ bs) = _
    rw [List.append_assoc, utf8Decode_encodeChar_append c hc, ih hcs]
    cases utf8Decode bs <;> simp

theorem utf8Decode_encode (cs : List Nat) (h : ∀ c ∈ cs, IsScalar c) :
    utf8Decode (utf8Encode cs) = some cs := by
  have := utf8Decode_encode_append cs h []
  simpa [utf8Decode, utf8DecodeAux] using this

/-- A byte sequence is valid UTF-8 when strict decoding succeeds. -/
def ValidUtf8 (bs : List Nat) : Prop := (utf8Decode bs).isSome = true

/-- Every element is a Unicode scalar value (the contents of a `str`). -/
def IsScalarList (cs : List Nat) : Prop := ∀ c ∈ cs, IsScalar c

instance (cs : List Nat) : Decidable (IsScalarList cs) := by
  unfold IsScalarList; infer_instance

/-! ## The `concat!` and `concat_bytes!` token layers -/

/-- Fuel-driven decimal digits of a natural number, most significant first,
as ASCII codes; fuel `n + 1` always suffices. -/
def natDecimalAux : Nat → Nat → List Nat
  | 0, _ => []
  | fuel + 1, n =>
    if n < 10 then [48 + n]
    else natDecimalAux fuel (n / 10) ++ [48 + n % 10]

/-- Decimal rendering of a natural number, as ASCII codes. -/
def natDecimal (n : Nat) : List Nat := natDecimalAux (n + 1) n

/-- Decimal rendering of an integer, as ASCII codes (`45` is a minus). -/
def intDecimal (i : Int) : List Nat :=
  if i < 0 then 45 :: natDecimal i.natAbs else natDecimal i.natAbs

/-- A literal token passed to `concat!`: `std::concat!` accepts string,
character, integer and boolean literals. -/
inductive Lit where
  | str : List Nat → Lit
  | char : Nat → Lit
  | int : Int → Lit
  | bool : Bool → Lit

/-- Modelled from the spec: the external literal-concatenation facility
(`core::concat!`) applied to a single literal token, yielding the textual
rendering of the literal as a string literal (string and character literals render
as themselves, integers in decimal, booleans as `true` / `false`). -/
def stdConcatOne : Lit → List Nat
  | .str s => s
  | .char c => [c]
  | .int i => intDecimal i
  | .bool true => [116, 114, 117, 101]
  | .bool false => [102, 97, 108, 115, 101]

/-- An argument token of `concat!`: a literal token or any other constant
expression (carried with its `&str` value as scalar values). -/
inductive STok where
  | lit : Lit → STok
  | expr : List Nat → STok

/-- The helper `_maybe_std_concat!`: a literal is passed, alone, through
`core::concat!`; any other expression is passed through unchanged. -/
def _maybe_std_concat : STok → List Nat
  | .lit l => stdConcatOne l
  | .expr s => s

/-- The `@impl` arm of `_concat!`: every piece is asserted to be a `&str`
constant, viewed as bytes (`as_bytes`, i.e. `utf8Encode`), concatenated
with `concat_slices!([u8]: ...)`, and the result is reinterpreted with
`str::from_utf8_unchecked` (strict decoding in the model). -/
def _concat_impl (ss : List (List Nat)) : Option (List Nat) :=
  match _concat_slices (ss.map utf8Encode) with
  | none => none
  | some bytes => utf8Decode bytes

/-- The `_concat!` macro: no arguments yield `""` directly; otherwise every
argument is run through `_maybe_std_concat!` and handed to the `@impl`
arm. -/
def _concat (toks : List STok) : Option (List Nat) :=
  match toks with
  | [] => some []
  | _ :: _ => _concat_impl (toks.map _maybe_std_concat)

/-- An argument token of `concat_bytes!`: a byte-literal token or any other
constant expression (carried with its `&[u8]` value). -/
inductive BTok where
  | lit : List Nat → BTok
  | expr : List Nat → BTok

/-- The helper `_maybe_std_concat_bytes!`: a literal is passed, alone, through
`core::concat_bytes!` (yielding its own byte-string literal); any other
expression is passed through unchanged. -/
def _maybe_std_concat_bytes : BTok → List Nat
  | .lit bs => bs
  | .expr bs => bs

/-- The `_concat_bytes!` macro: no arguments yield `b""` directly;
otherwise every argument is run through `_maybe_std_concat_bytes!` and the
pieces are handed to `concat_slices!([u8]: ...)`. -/
def _concat_bytes (toks : List BTok) : Option (List Nat) :=
  match toks with
  | [] => some []
  | _ :: _ => _concat_slices (toks.map _maybe_std_concat_bytes)

/-! ## The literal-run merging described by the spec, for comparison (claim 5) -/

/-- Modelled from the spec (sections 4.2 and 4.3, step 2): merge each
maximal run of adjacent literal tokens into a single literal via the
external literal-concatenation facility, leaving expression tokens alone.
This is what the spec says the byte concatenator does before handing the
piece list over; the code instead builds `toks.map _maybe_std_concat_bytes`. -/
def specMergeBytes : List BTok → List (List Nat)
  | [] => []
  | .expr v :: rest => v :: specMergeBytes rest
  | [.lit b] => [b]
  | .lit b :: .expr v :: rest => b :: v :: specMergeBytes rest
  | .lit b :: .lit b2 :: rest => specMergeBytes (.lit (b ++ b2) :: rest)
termination_by l => l.length
decreasing_by all_goals (simp [List.length_cons] <;> omega)

/-- Modelled from the spec (section 4.3, step 2): the same maximal-run
merging for `concat!`, with two adjacent literals merged into the single
string literal `core::concat!` would produce for the run. -/
def specMergeStr : List STok → List (List Nat)
  | [] => []
  | .expr v :: rest => v :: specMergeStr rest
  | [.lit l] => [stdConcatOne l]
  | .lit l :: .expr v :: rest => stdConcatOne l :: v :: specMergeStr rest
  | .lit l :: .lit l2 :: rest =>
    specMergeStr (.lit (.str (stdConcatOne l ++ stdConcatOne l2)) :: rest)
termination_by l => l.length
decreasing_by all_goals (simp [List.length_cons] <;> omega)

/-- Merging maximal literal runs does not change the concatenated bytes. -/
theorem specMergeBytes_flatten (toks : List BTok) :
    (specMergeBytes toks).flatten =
      (toks.map _maybe_std_concat_bytes).flatten := by
  induction toks using specMergeBytes.induct with
  | case1 => simp [specMergeBytes]
  | case2 v rest ih => simp [specMergeBytes, _maybe_std_concat_bytes, ih]
  | case3 b => simp [specMergeBytes, _maybe_std_concat_bytes]
  | case4 b v rest ih => simp [specMergeBytes, _maybe_std_concat_bytes, ih]
  | case5 b b2 rest ih =>
    rw [specMergeBytes, ih]
    simp [_maybe_std_concat_bytes, List.append_assoc]

/-- Merging maximal literal runs does not change the concatenated text. -/
theorem specMergeStr_flatten (toks : List STok) :
    (specMergeStr toks).flatten = (toks.map _maybe_std_concat).flatten := by
  induction toks using specMergeStr.induct with
  | case1 => simp [specMergeStr]
  | case2 v rest ih => simp [specMergeStr, _maybe_std_concat, ih]
  | case3 l => simp [specMergeStr, _maybe_std_concat]
  | case4 l v rest ih => simp [specMergeStr, _maybe_std_concat, ih]
  | case5 l l2 rest ih =>
    rw [specMergeStr, ih]
    simp [_maybe_std_concat, stdConcatOne, List.append_assoc]

/-! ## Type witnessing (`const _: &[$T] = $s;`), for claim 8 -/

/-- A `const` expression as seen by the witnessing line
`const _: &[$T] = $s;`: either it really is a constant `&[T]` of the
declared element type, or it is a constant of some other type. -/
inductive RustConst (α : Type) where
  | slice : List α → RustConst α
  | other : RustConst α
  deriving DecidableEq

/-- The compile-time witness `const _: &[$T] = $s;`: succeeds exactly on
slice constants of the declared element type; anything else is a hard
compile-time type error. -/
def sliceWitness {α : Type} : RustConst α → Option (List α)
  | .slice xs => some xs
  | .other => none

/-- Run the witnessing line over every piece, failing if any fails. -/
def witnessAll {α : Type} : List (RustConst α) → Option (List (List α))
  | [] => some []
  | v :: vs =>
    match sliceWitness v, witnessAll vs with
    | some p, some ps => some (p :: ps)
    | _, _ => none

/-- The macro `_concat_slices!` with the per-piece type witnessing explicit: any
wrongly typed piece makes the whole constant fail to compile. -/
def _concat_slices_checked {α : Type} (vs : List (RustConst α)) :
    Option (List α) :=
  match witnessAll vs with
  | none => none
  | some ps => _concat_slices ps

/-- A `const` expression as seen by the `const _: &str = $s;` witnessing
line of `_concat!`. -/
inductive StrConst where
  | str : List Nat → StrConst
  | other : StrConst
  deriving DecidableEq

/-- The compile-time witness `const _: &str = $s;`. -/
def strWitness : StrConst → Option (List Nat)
  | .str s => some s
  | .other => none

/-- Run the `&str` witnessing line over every piece. -/
def witnessAllStr : List StrConst → Option (List (List Nat))
  | [] => some []
  | v :: vs =>
    match strWitness v, witnessAllStr vs with
    | some p, some ps => some (p :: ps)
    | _, _ => none

/-- The macro `_concat!` with the per-piece `&str` witnessing explicit. -/
def _concat_checked (vs : List StrConst) : Option (List Nat) :=
  match vs with
  | [] => some []
  | _ :: _ =>
    match witnessAllStr vs with
    | none => none
    | some ss => _concat_impl ss

theorem witnessAll_of_mem_other {α : Type} :
    ∀ vs : List (RustConst α), RustConst.other ∈ vs → witnessAll vs = none := by
  intro vs
  induction vs with
  | nil => intro h; simp at h
  | cons v vs ih =>
    intro h
    rcases List.mem_cons.mp h with rfl | hmem
    · rfl
    · rw [witnessAll, ih hmem]
      cases sliceWitness v <;> rfl

theorem witnessAll_map_slice {α : Type} (ps : List (List α)) :
    witnessAll (ps.map RustConst.slice) = some ps := by
  induction ps with
  | nil => rfl
  | cons p ps ih => simp [witnessAll, sliceWitness, ih]

theorem witnessAllStr_of_mem_other :
    ∀ vs : List StrConst, StrConst.other ∈ vs → witnessAllStr vs = none := by
  intro vs
  induction vs with
  | nil => intro h; simp at h
  | cons v vs ih =>
    intro h
    rcases List.mem_cons.mp h with rfl | hmem
    · rfl
    · rw [witnessAllStr, ih hmem]
      cases strWitness v <;> rfl

/-! ## Staging-array initialization states, for claim 10 -/

/-- Whether a staging cell is in the `MaybeUninit::zeroed()` state. -/
def Cell.isZeroed {α : Type} : Cell α → Bool
  | .zeroed => true
  | _ => false

/-- The successive `(base, staging array)` states of the staged
construction, one entry per processed piece; the head is the initial
state. -/
def stagingStates {α : Type} (st : Nat × List (Cell α)) :
    List (List α) → List (Nat × List (Cell α))
  | [] => [st]
  | s :: rest => st :: stagingStates (concatStep st s) rest

/-- The copy loop only ever stores `written` cells, so it cannot introduce
an `uninit` cell. -/
theorem copyLoop_no_uninit {α : Type} (s : List α) (base : Nat) :
    ∀ n i (arr : List (Cell α)), n = s.length - i →
      (∀ c ∈ arr, c ≠ Cell.uninit) →
      ∀ c ∈ copyLoop s base i arr, c ≠ Cell.uninit := by
  intro n
  induction n with
  | zero =>
    intro i arr hn h c hc
    rw [copyLoop, dif_neg (by omega)] at hc
    exact h c hc
  | succ nn ih =>
    intro i arr hn h c hc
    have hi2 : i < s.length := by omega
    rw [copyLoop, dif_pos hi2] at hc
    refine ih (i + 1) _ (by omega) ?_ c hc
    intro d hd
    rcases List.mem_or_eq_of_mem_set hd with hmem | rfl
    · exact h d hmem
    · simp

/-- No state of the staged construction contains an `uninit` cell, given
an `uninit`-free starting state. -/
theorem stagingStates_no_uninit {α : Type} (ps : List (List α)) :
    ∀ st : Nat × List (Cell α), (∀ c ∈ st.2, c ≠ Cell.uninit) →
      ∀ st2 ∈ stagingStates st ps, ∀ c ∈ st2.2, c ≠ Cell.uninit := by
  induction ps with
  | nil =>
    intro st h st2 hst2
    simp only [stagingStates, List.mem_singleton] at hst2
    subst hst2
    exact h
  | cons s rest ih =>
    intro st h st2 hst2
    simp only [stagingStates, List.mem_cons] at hst2
    rcases hst2 with rfl | hmem
    · exact h
    · refine ih (concatStep st s) ?_ st2 hmem
      intro c hc
      simp only [concatStep] at hc
      exact copyLoop_no_uninit s st.1 (s.length - 0) 0 st.2 rfl h c hc

/-! ## The text pipeline -/

theorem utf8Encode_append (a b : List Nat) :
    utf8Encode (a ++ b) = utf8Encode a ++ utf8Encode b := by
  simp [utf8Encode]

theorem utf8Encode_flatten (ss : List (List Nat)) :
    (ss.map utf8Encode).flatten = utf8Encode ss.flatten := by
  induction ss with
  | nil => rfl
  | cons s ss ih => simp [utf8Encode_append, ih]

/-- The `@impl` arm of `_concat!` succeeds on any list of `str` constants
and returns their concatenation: the bytes produced by `concat_slices!`
are exactly the UTF-8 encoding of the concatenated text, so the unsafe
reinterpretation reads them back unchanged. -/
theorem concat_impl_eq (ss : List (List Nat)) (h : ∀ s ∈ ss, IsScalarList s) :
    _concat_impl ss = some ss.flatten := by
  unfold _concat_impl
  rw [concat_slices_eq_flatten]
  show utf8Decode ((ss.map utf8Encode).flatten) = some ss.flatten
  rw [utf8Encode_flatten]
  refine utf8Decode_encode _ ?_
  intro c hc
  rcases List.mem_flatten.mp hc with ⟨l, hl, hcl⟩
  exact h l hl c hcl

theorem natDecimalAux_lt (fuel : Nat) :
    ∀ n d, d ∈ natDecimalAux fuel n → d < 128 := by
  induction fuel with
  | zero =>
    intro n d hd
    simp [natDecimalAux] at hd
  | succ f ih =>
    intro n d hd
    unfold natDecimalAux at hd
    by_cases h : n < 10
    · rw [if_pos h] at hd
      simp at hd
      omega
    · rw [if_neg h] at hd
      rcases List.mem_append.mp hd with hmem | hmem
      · exact ih _ _ hmem
      · simp at hmem
        omega

theorem natDecimal_lt (n d : Nat) (h : d ∈ natDecimal n) : d < 128 :=
  natDecimalAux_lt (n + 1) n d h

/-- Well-formedness of a `concat!` token: whatever text it carries consists
of Unicode scalar values (automatic for Rust source tokens). -/
def tokWf : STok → Prop
  | .lit (.str s) => IsScalarList s
  | .lit (.char c) => IsScalar c
  | .lit (.int _) => True
  | .lit (.bool _) => True
  | .expr s => IsScalarList s

instance : (t : STok) → Decidable (tokWf t)
  | .lit (.str s) => inferInstanceAs (Decidable (IsScalarList s))
  | .lit (.char c) => inferInstanceAs (Decidable (IsScalar c))
  | .lit (.int _) => inferInstanceAs (Decidable True)
  | .lit (.bool _) => inferInstanceAs (Decidable True)
  | .expr s => inferInstanceAs (Decidable (IsScalarList s))

/-- The textual rendering of any well-formed token is valid text. -/
theorem maybeStdConcat_scalar (t : STok) (h : tokWf t) :
    IsScalarList (_maybe_std_concat t) := by
  cases t with
  | expr s => exact h
  | lit l =>
    cases l with
    | str s => exact h
    | char c =>
      intro d hd
      simp only [_maybe_std_concat, stdConcatOne, List.mem_singleton] at hd
      subst hd
      exact h
    | int i =>
      intro d hd
      simp only [_maybe_std_concat, stdConcatOne, intDecimal] at hd
      have hlt : d < 128 := by
        by_cases hneg : i < 0
        · rw [if_pos hneg] at hd
          rcases List.mem_cons.mp hd with h45 | hmem
          · omega
          · exact natDecimal_lt _ _ hmem
        · rw [if_neg hneg] at hd
          exact natDecimal_lt _ _ hd
      exact Or.inl (by omega)
    | bool b =>
      intro d hd
      cases b <;> simp only [_maybe_std_concat, stdConcatOne] at hd <;>
        (have hlt : d < 128 := by simp at hd; omega) <;>
        exact Or.inl (by omega)

/-- The macro `_concat!` succeeds on any list of well-formed tokens and returns the
concatenation of their textual renderings in order. -/
theorem concat_eq (toks : List STok) (h : ∀ t ∈ toks, tokWf t) :
    _concat toks = some ((toks.map _maybe_std_concat).flatten) := by
  match toks with
  | [] => rfl
  | t :: ts =>
    show _concat_impl ((t :: ts).map _maybe_std_concat) = _
    refine concat_impl_eq _ ?_
    intro s hs
    rcases List.mem_map.mp hs with ⟨tk, htk, rfl⟩
    exact maybeStdConcat_scalar tk (h tk htk)

/-! ## The claims -/

/-- Claim C1: For every list of constant slice pieces of element type `T`, the
slice returned by the slice concatenator has length equal to the sum of the
lengths of the pieces (zero pieces giving length 0). -/
theorem claim1_length (α : Type) (pieces : List (List α)) :
    ∃ out, _concat_slices pieces = some out ∧
      out.length = (pieces.map List.length).sum :=
  ⟨pieces.flatten, concat_slices_eq_flatten pieces, by simp⟩

/-- Claim C2: For every list of constant slice pieces, the output slice read
left to right equals the elementwise concatenation of the pieces in
argument order: element `i` of piece `k` lands at output index `base + i`,
where `base` is the sum of the lengths of all earlier pieces. -/
theorem claim2_order (α : Type) (pieces : List (List α)) :
    _concat_slices pieces = some pieces.flatten ∧
    ∀ (k : Nat) (hk : k < pieces.length) (i : Nat),
      i < (pieces.get ⟨k, hk⟩).length →
      (pieces.flatten)[((pieces.take k).map List.length).sum + i]? =
        (pieces.get ⟨k, hk⟩)[i]? :=
  ⟨concat_slices_eq_flatten pieces, flatten_getElem_eq pieces⟩

/-- Witness for C2: `concat_slices!([i32]: &[1, 3, 3, 7], &[0, 1])`, with
element `0` of piece `1` landing at output index `4 + 0`. -/
theorem claim2_order_witness :
    _concat_slices [[(1 : Int), 3, 3, 7], [0, 1]] =
      some [(1 : Int), 3, 3, 7, 0, 1] ∧
    ([[(1 : Int), 3, 3, 7], [0, 1]].flatten)[
        (([[(1 : Int), 3, 3, 7], [0, 1]].take 1).map List.length).sum + 0]? =
      ([[(1 : Int), 3, 3, 7], [0, 1]].get ⟨1, by decide⟩)[0]? :=
  ⟨(claim2_order Int [[1, 3, 3, 7], [0, 1]]).1,
    (claim2_order Int [[1, 3, 3, 7], [0, 1]]).2 1 (by decide) 0 (by decide)⟩

/-- Claim C3: For the text concatenator, if every input piece is valid text,
then the byte sequence produced by the slice concatenator is valid UTF-8,
so reinterpreting it as text without re-validating the encoding never
produces invalid text. -/
theorem claim3_utf8_safety (ss : List (List Nat))
    (h : ∀ s ∈ ss, IsScalarList s) :
    ∃ bytes, _concat_slices (ss.map utf8Encode) = some bytes ∧
      ValidUtf8 bytes ∧ _concat_impl ss = some ss.flatten := by
  have hflat : ∀ c ∈ ss.flatten, IsScalar c := by
    intro c hc
    rcases List.mem_flatten.mp hc with ⟨l, hl, hcl⟩
    exact h l hl c hcl
  refine ⟨utf8Encode ss.flatten, ?_, ?_, concat_impl_eq ss h⟩
  · rw [concat_slices_eq_flatten, utf8Encode_flatten]
  · unfold ValidUtf8
    rw [utf8Decode_encode _ hflat]
    rfl

/-- Witness for C3: `concat!("a", "❤️")`. -/
theorem claim3_utf8_safety_witness :
    (∀ s ∈ [[97], [10084, 65039]], IsScalarList s) ∧
    ∃ bytes,
      _concat_slices ([[97], [10084, 65039]].map utf8Encode) = some bytes ∧
      ValidUtf8 bytes ∧
      _concat_impl [[97], [10084, 65039]] = some [97, 10084, 65039] :=
  ⟨by decide, claim3_utf8_safety [[97], [10084, 65039]] (by decide)⟩

/-- Claim C4: After all pieces are copied the running offset `base` equals the
precomputed total length `LEN`, so the fatal `"invalid length"` check never
fires: the panic branch of the completeness guard is unreachable. -/
theorem claim4_guard_unreachable (α : Type) (pieces : List (List α)) :
    (stagingRun pieces).1 = LEN pieces ∧
    (_concat_slices pieces).isSome = true := by
  constructor
  · rw [stagingRun_eq]
  · rw [concat_slices_eq_flatten]
    rfl

/-- Claim C5, counterexample: With two adjacent byte literals, the piece
list the code hands to the slice concatenator keeps one piece per literal
token; the spec-described merging of the maximal run into a single piece
does not happen. -/
theorem claim5_counterexample :
    [BTok.lit [1], BTok.lit [2]].map _maybe_std_concat_bytes =
      [[1], [2]] ∧
    specMergeBytes [BTok.lit [1], BTok.lit [2]] = [[1, 2]] ∧
    ([[1], [2]] : List (List Nat)) ≠ [[1, 2]] := by
  refine ⟨by decide, ?_, by decide⟩
  simp [specMergeBytes]

/-- Claim C5, amended: Each literal token is converted individually via the
external literal-concatenation facility into its own piece — maximal runs
of adjacent literals are not merged — and this changes nothing observable:
the result equals what the spec-described run merging would produce. -/
theorem claim5_no_merge_same_result (btoks : List BTok) (stoks : List STok) :
    _concat_bytes btoks = _concat_slices (specMergeBytes btoks) ∧
    (stoks.map _maybe_std_concat).flatten = (specMergeStr stoks).flatten := by
  refine ⟨?_, (specMergeStr_flatten stoks).symm⟩
  match btoks with
  | [] => simp [_concat_bytes, specMergeBytes, _concat_slices]
  | b :: bs =>
    show _concat_slices ((b :: bs).map _maybe_std_concat_bytes) = _
    rw [concat_slices_eq_flatten, concat_slices_eq_flatten,
      specMergeBytes_flatten]

/-- Claim C6: For every list of text pieces, reading the result of the text
concatenator as raw bytes equals concatenating the raw-byte forms of the
pieces
directly with the byte-level slice concatenator. -/
theorem claim6_text_round_trip (ss : List (List Nat))
    (h : ∀ s ∈ ss, IsScalarList s) :
    Option.map utf8Encode (_concat_impl ss) =
      _concat_slices (ss.map utf8Encode) := by
  rw [concat_impl_eq ss h, concat_slices_eq_flatten, utf8Encode_flatten]
  rfl

/-- Witness for C6: `concat!("a", "b")`. -/
theorem claim6_text_round_trip_witness :
    (∀ s ∈ [[97], [98]], IsScalarList s) ∧
    Option.map utf8Encode (_concat_impl [[97], [98]]) =
      _concat_slices ([[97], [98]].map utf8Encode) :=
  ⟨by decide, claim6_text_round_trip [[97], [98]] (by decide)⟩

/-- Claim C7: With zero input pieces, each of the three operations returns
the empty result immediately from its dedicated zero-argument arm (the
equations hold definitionally, without the staged-construction path). -/
theorem claim7_empty_fast_path :
    _concat [] = some [] ∧ _concat_bytes [] = some [] ∧
    ∀ (α : Type), _concat_slices ([] : List (List α)) = some [] :=
  ⟨rfl, rfl, fun _ => rfl⟩

/-- Claim C8: Every input piece to the slice concatenator is witnessed at
compile time to be a constant `&[T]` (and every piece to the text
concatenator a `&str`); a piece of any other type causes a hard
compile-time failure (`none`), never a runtime error or a wrong result. -/
theorem claim8_type_witnessing (α : Type) (vs : List (RustConst α))
    (ws : List StrConst) :
    (RustConst.other ∈ vs → _concat_slices_checked vs = none) ∧
    (∀ ps : List (List α), vs = ps.map RustConst.slice →
      _concat_slices_checked vs = some ps.flatten) ∧
    (StrConst.other ∈ ws → _concat_checked ws = none) := by
  refine ⟨?_, ?_, ?_⟩
  · intro h
    unfold _concat_slices_checked
    rw [witnessAll_of_mem_other vs h]
  · intro ps hps
    subst hps
    unfold _concat_slices_checked
    rw [witnessAll_map_slice]
    exact concat_slices_eq_flatten ps
  · intro h
    match ws with
    | [] => simp at h
    | w :: ws2 =>
      show (match witnessAllStr (w :: ws2) with
        | none => none
        | some ss => _concat_impl ss) = none
      rw [witnessAllStr_of_mem_other _ h]

/-- Witness for C8: a wrongly typed piece kills the build; well-typed
pieces give exactly the concatenation. -/
theorem claim8_type_witnessing_witness :
    _concat_slices_checked [RustConst.slice [1],
      (RustConst.other : RustConst Int)] = none ∧
    _concat_slices_checked [RustConst.slice [(1 : Int), 2]] = some [1, 2] ∧
    _concat_checked [StrConst.str [97], StrConst.other] = none :=
  ⟨(claim8_type_witnessing Int [RustConst.slice [1], RustConst.other] []).1
      (by decide),
    (claim8_type_witnessing Int [RustConst.slice [(1 : Int), 2]] []).2.1
      [[1, 2]] (by decide),
    (claim8_type_witnessing Int [] [StrConst.str [97], StrConst.other]).2.2
      (by decide)⟩

/-- Claim C9: The text concatenator accepts literal pieces that are not text
literals: each literal piece is first converted to its textual form by the
external facility, and the concatenation succeeds and includes the
textual rendering of the literal at its position. -/
theorem claim9_literal_rendering (toks : List STok)
    (h : ∀ t ∈ toks, tokWf t) :
    _concat toks = some ((toks.map _maybe_std_concat).flatten) :=
  concat_eq toks h

/-- Witness for C9: `concat!(42, true)` renders as `"42true"`. -/
theorem claim9_literal_rendering_witness :
    _concat [STok.lit (Lit.int 42), STok.lit (Lit.bool true)] =
      some [52, 50, 116, 114, 117, 101] := by
  have h := claim9_literal_rendering
    [STok.lit (Lit.int 42), STok.lit (Lit.bool true)] (by decide)
  rw [show (([STok.lit (Lit.int 42), STok.lit (Lit.bool true)].map
    _maybe_std_concat).flatten) = [52, 50, 116, 114, 117, 101] by decide] at h
  exact h

/-- Claim C10: Every cell of the staging array is initialized to a zeroed
value before any copy loop runs, and no state of the staged construction
(including the final one that is transmuted) contains an uninitialized
cell, independently of the completeness guard. -/
theorem claim10_staging_initialized (α : Type) (ps : List (List α)) :
    ((List.replicate (LEN ps) (Cell.zeroed : Cell α)).all fun c =>
      c.isZeroed) = true ∧
    ((stagingStates (0, List.replicate (LEN ps) Cell.zeroed) ps).all fun st =>
      st.2.all fun c => !c.isUninit) = true := by
  constructor
  · rw [List.all_eq_true]
    intro c hc
    rw [List.eq_of_mem_replicate hc]
    rfl
  · rw [List.all_eq_true]
    intro st hst
    rw [List.all_eq_true]
    intro c hc
    have hne := stagingStates_no_uninit ps
      (0, List.replicate (LEN ps) Cell.zeroed)
      (by
        intro c2 hc2
        rw [List.eq_of_mem_replicate hc2]
        simp)
      st hst c hc
    cases c <;> simp [Cell.isUninit] at hne ⊢

end Constcat
